import Mathlib

/-!
Verification of the `ios_lacp_interfaces` resource module.

The repository ships the module entry point
(`plugins/modules/ios_lacp_interfaces.py`): argument validation data
(`required_if`, `mutually_exclusive`), the documented default
`state: merged`, and documentation examples.  The reconciliation engine
itself (the `Lacp_Interfaces` configuration class) is imported from
`module_utils` and is not part of the repository sources, so it is
modelled here from the specification, with the concrete attribute
emission order pinned by the module's own rendered example output.
-/

namespace LacpInterfaces

/-- The core entity: one per-interface LACP attribute record.  Attribute
fields are `Option`-valued: `none` means "not managed by this operation",
distinct from explicit `false`/numeric values.  Mirrors the module's
`config` element suboptions (`name`, `port_priority`, `fast_switchover`,
`max_bundle`). -/
structure InterfaceLacpConfig where
  name : String
  port_priority : Option Int
  fast_switchover : Option Bool
  max_bundle : Option Int
deriving DecidableEq, Repr

/-- Record with a name and no managed attributes: the terminal "no LACP
attributes configured" state. -/
def emptyRecord (n : String) : InterfaceLacpConfig :=
  ⟨n, none, none, none⟩

/-- The four reconciliation policies routed to the engine (the pure
modes `rendered`, `gathered`, `parsed` bypass diffing). -/
inductive Policy
  | merged
  | replaced
  | overridden
  | deleted
deriving DecidableEq, Repr

/-- Typed device commands the engine can emit; `renderCmd` maps them to
the literal IOS command strings. -/
inductive Cmd
  | enter (intfName : String)
  | setPP (v : Int)
  | clearPP
  | setMB (v : Int)
  | clearMB
  | enableFS
  | disableFS
deriving DecidableEq, Repr

/-- Literal command-line rendering of a typed command. -/
def renderCmd : Cmd → String
  | .enter intfName => "interface " ++ intfName
  | .setPP v => "lacp port-priority " ++ toString v
  | .clearPP => "no lacp port-priority"
  | .setMB v => "lacp max-bundle " ++ toString v
  | .clearMB => "no lacp max-bundle"
  | .enableFS => "lacp fast-switchover"
  | .disableFS => "no lacp fast-switchover"

/-- First record of the set carrying the given interface name (a
ConfigurationSet is keyed by `name`). -/
def findByName (s : List InterfaceLacpConfig) (n : String) : Option InterfaceLacpConfig :=
  s.find? (fun r => r.name == n)

/-- ConfigurationSet key invariant: no duplicate interface names. -/
def namesNodup (s : List InterfaceLacpConfig) : Prop :=
  (s.map (fun r => r.name)).Nodup

instance (s : List InterfaceLacpConfig) : Decidable (namesNodup s) := by
  unfold namesNodup
  infer_instance

/-- Modelled from the spec: after-value of a numeric attribute
(`port_priority` / `max_bundle`) for an interface present in desired.
Desired `some v` wins; desired `none` keeps the existing value under
`merged` and clears it under `replaced`/`overridden`. -/
def numAfter (p : Policy) (d e : Option Int) : Option Int :=
  match d with
  | some v => some v
  | none =>
    match p with
    | .merged => e
    | _ => none

/-- Modelled from the spec: after-value of the `fast_switchover`
presence flag.  Desired `some b` wins; desired `none` keeps the existing
value under `merged` and removes an enabled flag under
`replaced`/`overridden`. -/
def flagAfter (p : Policy) (d e : Option Bool) : Option Bool :=
  match d with
  | some b => some b
  | none =>
    match p with
    | .merged => e
    | _ => if e = some true then none else e

/-- Modelled from the spec: commands for one numeric attribute.  Set
when desired differs from existing; under `replaced`/`overridden` a
desired-absent attribute that exists is negated; equal values emit
nothing (idempotence). -/
def numCmds (p : Policy) (d e : Option Int) (mkSet : Int → Cmd) (mkClear : Cmd) : List Cmd :=
  match d with
  | some v => if e = some v then [] else [mkSet v]
  | none =>
    match p with
    | .merged => []
    | _ => if e.isSome then [mkClear] else []

/-- Modelled from the spec: commands for the `fast_switchover` presence
flag.  Desired `true` enables unless already enabled; desired explicit
`false` disables only when currently enabled; desired-absent disables an
enabled flag under `replaced`/`overridden` only. -/
def flagCmds (p : Policy) (d e : Option Bool) : List Cmd :=
  match d with
  | some true => if e = some true then [] else [Cmd.enableFS]
  | some false => if e = some true then [Cmd.disableFS] else []
  | none =>
    match p with
    | .merged => []
    | _ => if e = some true then [Cmd.disableFS] else []

/-- Modelled from the spec: attribute commands for one interface present
in desired, in the emission order shown by the module's rendered example
(`lacp port-priority`, `lacp max-bundle`, `lacp fast-switchover`). -/
def attrCmds (p : Policy) (d e : InterfaceLacpConfig) : List Cmd :=
  numCmds p d.port_priority e.port_priority Cmd.setPP Cmd.clearPP
    ++ numCmds p d.max_bundle e.max_bundle Cmd.setMB Cmd.clearMB
    ++ flagCmds p d.fast_switchover e.fast_switchover

/-- Modelled from the spec: after-record for an interface present in
desired, built attribute-wise from the per-attribute rules. -/
def applyCommon (p : Policy) (d e : InterfaceLacpConfig) : InterfaceLacpConfig :=
  { name := e.name
    port_priority := numAfter p d.port_priority e.port_priority
    fast_switchover := flagAfter p d.fast_switchover e.fast_switchover
    max_bundle := numAfter p d.max_bundle e.max_bundle }

/-- Modelled from the spec: negate commands clearing every managed
attribute an existing record has set (used by `overridden` for
existing-only interfaces and by `deleted`), in the same fixed attribute
order. -/
def clearCmds (e : InterfaceLacpConfig) : List Cmd :=
  (match e.port_priority with
   | some _ => [Cmd.clearPP]
   | none => [])
    ++ (match e.max_bundle with
        | some _ => [Cmd.clearMB]
        | none => [])
    ++ (match e.fast_switchover with
        | some true => [Cmd.disableFS]
        | _ => [])

/-- Existing record for a desired name, or the empty record when the
interface is not present on the device (the engine never requires the
interface to pre-exist). -/
def lookupOrEmpty (E : List InterfaceLacpConfig) (n : String) : InterfaceLacpConfig :=
  (findByName E n).getD (emptyRecord n)

/-- Modelled from the spec: per-interface command blocks, one
`(interface name, attribute commands)` pair per acted-on interface, in
desired order (and, for `overridden`, existing-only clears after; for
`deleted`, selected by the desired names, or every existing interface
when no config is given). -/
def blocksOf (p : Policy) (D E : List InterfaceLacpConfig) : List (String × List Cmd) :=
  match p with
  | .deleted =>
    if D.isEmpty then
      E.map (fun e => (e.name, clearCmds e))
    else
      D.map (fun d =>
        match findByName E d.name with
        | some e => (e.name, clearCmds e)
        | none => (d.name, []))
  | _ =>
    D.map (fun d => (d.name, attrCmds p d (lookupOrEmpty E d.name)))
      ++ (match p with
          | .overridden =>
            (E.filter (fun e => (findByName D e.name).isNone)).map
              (fun e => (e.name, clearCmds e))
          | _ => [])

/-- Concatenation of the images of a list-valued function (the engine
flattens per-interface blocks into one ordered command list). -/
def concatMapL (f : α → List β) : List α → List β
  | [] => []
  | x :: xs => f x ++ concatMapL f xs

/-- A block's contribution: nothing when no attribute command is
emitted, otherwise the enter-interface-context command followed by the
attribute commands. -/
def blockCmds (b : String × List Cmd) : List Cmd :=
  if b.2.isEmpty then [] else Cmd.enter b.1 :: b.2

/-- Modelled from the spec: the full ordered typed command list of one
reconciliation. -/
def typedCommands (p : Policy) (D E : List InterfaceLacpConfig) : List Cmd :=
  concatMapL blockCmds (blocksOf p D E)

/-- Modelled from the spec: the after state, i.e. the existing set with
the per-attribute deltas applied (interfaces are never removed), plus
desired-only interfaces added as new records for the three
change-producing common policies. -/
def afterState (p : Policy) (D E : List InterfaceLacpConfig) : List InterfaceLacpConfig :=
  match p with
  | .deleted =>
    E.map (fun e =>
      if D.isEmpty || (findByName D e.name).isSome then emptyRecord e.name else e)
  | _ =>
    E.map (fun e =>
      match findByName D e.name with
      | some d => applyCommon p d e
      | none =>
        match p with
        | .overridden => emptyRecord e.name
        | _ => e)
      ++ (D.filter (fun d => (findByName E d.name).isNone)).map
          (fun d => applyCommon p d (emptyRecord d.name))

/-- Result envelope of one reconciliation. -/
structure ReconciliationResult where
  before : List InterfaceLacpConfig
  after : List InterfaceLacpConfig
  commands : List String
  changed : Bool
deriving DecidableEq, Repr

/-- Modelled from the spec: the reconciliation engine.  `before` is the
existing state, `after` the delta-applied state, `commands` the rendered
ordered command list, `changed` whether any interface produced a
command. -/
def reconcile (D E : List InterfaceLacpConfig) (p : Policy) : ReconciliationResult :=
  { before := E
    after := afterState p D E
    commands := (typedCommands p D E).map renderCmd
    changed := (blocksOf p D E).any (fun b => !b.2.isEmpty) }

/-- Pointwise characterization of the after state, written from the
spec's policy table: for each interface name, the record the after state
must carry, by cases on its presence in desired and existing. -/
def afterRecordSpec (p : Policy) (D E : List InterfaceLacpConfig) (n : String) :
    Option InterfaceLacpConfig :=
  match p with
  | .deleted =>
    match findByName E n with
    | some e =>
      if D.isEmpty || (findByName D n).isSome then some (emptyRecord e.name) else some e
    | none => none
  | _ =>
    match findByName E n, findByName D n with
    | some e, some d => some (applyCommon p d e)
    | some e, none =>
      if p = Policy.overridden then some (emptyRecord e.name) else some e
    | none, some d => some (applyCommon p d (emptyRecord d.name))
    | none, none => none

/-- Names accepted by the module's `state` option. -/
inductive StateName
  | merged
  | replaced
  | overridden
  | deleted
  | rendered
  | gathered
  | parsed
deriving DecidableEq, Repr

/-- The module's invocation parameters as validated by `main`:
`state` (optional, default `merged`), the `config` record list and the
`running_config` text, each optionally supplied. -/
structure ModuleParams where
  state : Option StateName
  config : Option (List InterfaceLacpConfig)
  running_config : Option String
deriving Repr

/-- Effective state of an invocation: the documented default `merged`
applies when the `state` option is omitted. -/
def effectiveState (p : ModuleParams) : StateName :=
  p.state.getD StateName.merged

/-- The `required_if` table of `main`: each state that requires a
companion option, with the option's name. -/
def requiredIf : List (StateName × String) :=
  [(StateName.merged, "config"),
   (StateName.replaced, "config"),
   (StateName.overridden, "config"),
   (StateName.rendered, "config"),
   (StateName.parsed, "running_config")]

/-- Whether the named option was supplied in the invocation. -/
def hasOption (p : ModuleParams) (opt : String) : Bool :=
  if opt = "config" then p.config.isSome
  else if opt = "running_config" then p.running_config.isSome
  else false

/-- One `required_if` row fires when the effective state matches and the
required option is missing. -/
def missingRequirement (p : ModuleParams) (r : StateName × String) : Bool :=
  decide (effectiveState p = r.1) && !(hasOption p r.2)

/-- Argument validation of `main`: the `config`/`running_config` mutual
exclusion and the `required_if` table, checked before the engine is
invoked. -/
def validateParams (p : ModuleParams) : Except String Unit :=
  if p.config.isSome && p.running_config.isSome then
    Except.error "parameters are mutually exclusive: config|running_config"
  else
    match requiredIf.find? (missingRequirement p) with
    | some r => Except.error ("missing required option: " ++ r.2)
    | none => Except.ok ()

/-- Whether a validation outcome is a failure. -/
def isErr : Except String Unit → Bool
  | .error _ => true
  | .ok _ => false

/-- Rank of a typed command's attribute in the fixed emission order
(`port_priority` before `max_bundle` before `fast_switchover`). -/
def attrRank : Cmd → Nat
  | .setPP _ => 0
  | .clearPP => 0
  | .setMB _ => 1
  | .clearMB => 1
  | .enableFS => 2
  | .disableFS => 2
  | .enter _ => 3

/-- Whether a typed command is an attribute command (not an
enter-interface-context command). -/
def isAttrCmd : Cmd → Bool
  | .enter _ => false
  | _ => true

/-- The desired configuration of the module's rendered documentation
example. -/
def renderedExampleConfig : List InterfaceLacpConfig :=
  [⟨"GigabitEthernet0/1", some 10, none, none⟩,
   ⟨"GigabitEthernet0/2", some 20, none, none⟩,
   ⟨"Port-channel10", none, some true, some 2⟩]

theorem findByName_nil (n : String) : findByName [] n = none := rfl

theorem findByName_cons (r : InterfaceLacpConfig) (s : List InterfaceLacpConfig) (n : String) :
    findByName (r :: s) n = if r.name = n then some r else findByName s n := by
  by_cases h : r.name = n <;> simp [findByName, List.find?_cons, h]

theorem findByName_name {s : List InterfaceLacpConfig} {n : String} {r : InterfaceLacpConfig}
    (h : findByName s n = some r) : r.name = n := by
  induction s with
  | nil => simp [findByName_nil] at h
  | cons a t ih =>
    rw [findByName_cons] at h
    split at h
    · cases h
      assumption
    · exact ih h

theorem findByName_mem {s : List InterfaceLacpConfig} {n : String} {r : InterfaceLacpConfig}
    (h : findByName s n = some r) : r ∈ s := by
  induction s with
  | nil => simp [findByName_nil] at h
  | cons a t ih =>
    rw [findByName_cons] at h
    split at h
    · injection h with h2
      subst h2
      exact List.mem_cons_self _ _
    · exact List.mem_cons_of_mem a (ih h)

theorem findByName_of_nodup {s : List InterfaceLacpConfig} (hs : namesNodup s)
    {r : InterfaceLacpConfig} (hr : r ∈ s) : findByName s r.name = some r := by
  induction s with
  | nil => cases hr
  | cons a t ih =>
    have hs' : a.name ∉ t.map (fun x => x.name) ∧ namesNodup t := by
      simpa [namesNodup] using hs
    rw [findByName_cons]
    rcases List.mem_cons.mp hr with h | h
    · subst h
      simp
    · have hne : a.name ≠ r.name := by
        intro hEq
        exact hs'.1 (hEq ▸ List.mem_map_of_mem (fun x => x.name) h)
      simp [hne, ih hs'.2 h]

theorem findByName_isSome_of_mem {s : List InterfaceLacpConfig} {r : InterfaceLacpConfig}
    (hr : r ∈ s) : (findByName s r.name).isSome = true := by
  induction s with
  | nil => cases hr
  | cons a t ih =>
    rw [findByName_cons]
    rcases List.mem_cons.mp hr with h | h
    · subst h
      simp
    · by_cases hn : a.name = r.name
      · simp [hn]
      · simp [hn, ih h]

theorem findByName_append (s t : List InterfaceLacpConfig) (n : String) :
    findByName (s ++ t) n =
      match findByName s n with
      | some r => some r
      | none => findByName t n := by
  induction s with
  | nil => simp [findByName_nil]
  | cons a s' ih =>
    rw [List.cons_append, findByName_cons, findByName_cons]
    by_cases h : a.name = n
    · simp [h]
    · simp [h, ih]

theorem findByName_map (f : InterfaceLacpConfig → InterfaceLacpConfig)
    (hf : ∀ r, (f r).name = r.name) (s : List InterfaceLacpConfig) (n : String) :
    findByName (s.map f) n = (findByName s n).map f := by
  induction s with
  | nil => simp [findByName_nil]
  | cons a t ih =>
    rw [List.map_cons, findByName_cons, findByName_cons]
    by_cases h : a.name = n
    · simp [hf a, h]
    · simp [hf a, h, ih]

theorem findByName_filter (q : InterfaceLacpConfig → Bool) (s : List InterfaceLacpConfig)
    (n : String) (hq : ∀ r ∈ s, r.name = n → q r = true) :
    findByName (s.filter q) n = findByName s n := by
  induction s with
  | nil => simp [findByName_nil]
  | cons a t ih =>
    have ih' := ih (fun r hr => hq r (List.mem_cons_of_mem a hr))
    by_cases hqa : q a = true
    · rw [List.filter_cons_of_pos hqa, findByName_cons, findByName_cons]
      by_cases h : a.name = n
      · simp [h]
      · simp [h, ih']
    · have hn : a.name ≠ n := by
        intro h
        exact hqa (hq a (List.mem_cons_self a t) h)
      rw [List.filter_cons_of_neg (by simpa using hqa), findByName_cons]
      simp [hn, ih']

theorem concatMapL_eq_nil {α β : Type} {f : α → List β} {l : List α}
    (h : ∀ x ∈ l, f x = []) : concatMapL f l = [] := by
  induction l with
  | nil => rfl
  | cons a t ih =>
    simp only [concatMapL, h a (List.mem_cons_self a t)]
    exact ih (fun x hx => h x (List.mem_cons_of_mem a hx))

theorem mem_concatMapL {α β : Type} {f : α → List β} {l : List α} {b : β} :
    b ∈ concatMapL f l ↔ ∃ x ∈ l, b ∈ f x := by
  induction l with
  | nil => simp [concatMapL]
  | cons a t ih => simp [concatMapL, ih]

theorem concatMapL_ne_nil_iff {α β : Type} {f : α → List β} {l : List α} :
    concatMapL f l ≠ [] ↔ ∃ x ∈ l, f x ≠ [] := by
  induction l with
  | nil => simp [concatMapL]
  | cons a t ih =>
    simp only [concatMapL, ne_eq, List.append_eq_nil]
    constructor
    · intro h
      by_cases ha : f a = []
      · rcases ih.mp (fun ht => h ⟨ha, ht⟩) with ⟨x, hx, hfx⟩
        exact ⟨x, List.mem_cons_of_mem a hx, hfx⟩
      · exact ⟨a, List.mem_cons_self a t, ha⟩
    · rintro ⟨x, hx, hfx⟩ ⟨ha, ht⟩
      rcases List.mem_cons.mp hx with h | h
      · exact hfx (h ▸ ha)
      · exact (ih.mpr ⟨x, h, hfx⟩) ht

theorem concatMapL_blockCmds_filter (l : List (String × List Cmd)) :
    concatMapL blockCmds l =
      concatMapL (fun b => Cmd.enter b.1 :: b.2) (l.filter (fun b => !b.2.isEmpty)) := by
  induction l with
  | nil => rfl
  | cons a t ih =>
    by_cases ha : a.2.isEmpty = true
    · rw [List.filter_cons_of_neg (by simp [ha])]
      simp only [concatMapL, blockCmds, ha, if_pos rfl]
      simpa using ih
    · rw [List.filter_cons_of_pos (by simp [ha])]
      simp only [concatMapL, blockCmds, ha]
      simp [ih]

theorem numCmds_after (p : Policy) (d e : Option Int) (mkSet : Int → Cmd) (mkClear : Cmd) :
    numCmds p d (numAfter p d e) mkSet mkClear = [] := by
  cases d with
  | some v => simp [numCmds, numAfter]
  | none => cases p <;> simp [numCmds, numAfter]

theorem flagCmds_after (p : Policy) (d e : Option Bool) :
    flagCmds p d (flagAfter p d e) = [] := by
  cases d with
  | some b => cases b <;> simp [flagCmds, flagAfter]
  | none =>
    cases p <;> simp only [flagCmds, flagAfter] <;>
      first
        | rfl
        | (by_cases he : e = some true <;> simp [he])

theorem attrCmds_after (p : Policy) (d e : InterfaceLacpConfig) :
    attrCmds p d (applyCommon p d e) = [] := by
  simp [attrCmds, applyCommon, numCmds_after, flagCmds_after]

theorem clearCmds_emptyRecord (n : String) : clearCmds (emptyRecord n) = [] := rfl

theorem applyCommon_name (p : Policy) (d e : InterfaceLacpConfig) :
    (applyCommon p d e).name = e.name := rfl

theorem emptyRecord_name (n : String) : (emptyRecord n).name = n := rfl

theorem findByName_afterState (p : Policy) (D E : List InterfaceLacpConfig) (n : String) :
    findByName (afterState p D E) n = afterRecordSpec p D E n := by
  cases p with
  | deleted =>
    simp only [afterState, afterRecordSpec]
    rw [findByName_map _ (fun r => by
      by_cases h : (D.isEmpty || (findByName D r.name).isSome) = true <;>
        simp [h, emptyRecord_name])]
    cases hE : findByName E n with
    | none => rfl
    | some e =>
      have hn := findByName_name hE
      simp only [Option.map_some']
      rw [hn]
      by_cases hc : (D.isEmpty || (findByName D n).isSome) = true <;> simp [hc]
  | merged =>
    simp only [afterState, afterRecordSpec]
    rw [findByName_append]
    rw [findByName_map _ (fun r => by
      cases hD : findByName D r.name <;> simp [hD, applyCommon_name, emptyRecord_name])]
    cases hE : findByName E n with
    | some e =>
      have hn := findByName_name hE
      simp only [Option.map_some']
      rw [hn]
      cases hD : findByName D n <;> simp [hD]
    | none =>
      simp only [Option.map_none']
      rw [findByName_map _ (fun r => by simp [applyCommon_name, emptyRecord_name])]
      rw [findByName_filter _ _ _ (fun r _ hrn => by simp [hrn, hE])]
      cases hD : findByName D n <;> simp [hD]
  | replaced =>
    simp only [afterState, afterRecordSpec]
    rw [findByName_append]
    rw [findByName_map _ (fun r => by
      cases hD : findByName D r.name <;> simp [hD, applyCommon_name, emptyRecord_name])]
    cases hE : findByName E n with
    | some e =>
      have hn := findByName_name hE
      simp only [Option.map_some']
      rw [hn]
      cases hD : findByName D n <;> simp [hD]
    | none =>
      simp only [Option.map_none']
      rw [findByName_map _ (fun r => by simp [applyCommon_name, emptyRecord_name])]
      rw [findByName_filter _ _ _ (fun r _ hrn => by simp [hrn, hE])]
      cases hD : findByName D n <;> simp [hD]
  | overridden =>
    simp only [afterState, afterRecordSpec]
    rw [findByName_append]
    rw [findByName_map _ (fun r => by
      cases hD : findByName D r.name <;> simp [hD, applyCommon_name, emptyRecord_name])]
    cases hE : findByName E n with
    | some e =>
      have hn := findByName_name hE
      simp only [Option.map_some']
      rw [hn]
      cases hD : findByName D n <;> simp [hD, hn]
    | none =>
      simp only [Option.map_none']
      rw [findByName_map _ (fun r => by simp [applyCommon_name, emptyRecord_name])]
      rw [findByName_filter _ _ _ (fun r _ hrn => by simp [hrn, hE])]
      cases hD : findByName D n <;> simp [hD]

theorem blockCmds_ne_nil_iff (b : String × List Cmd) :
    blockCmds b ≠ [] ↔ (!b.2.isEmpty) = true := by
  by_cases h : b.2.isEmpty <;> simp [blockCmds, h]

/-- C8: for every reconcile invocation under any policy, the after state
is pointwise the existing state with the per-attribute deltas applied
(characterized name-by-name by `afterRecordSpec`), and the changed flag
is true exactly when the emitted command list is non-empty. -/
theorem after_matches_deltas_and_changed (D E : List InterfaceLacpConfig) (p : Policy) :
    (∀ n, findByName (reconcile D E p).after n = afterRecordSpec p D E n) ∧
      ((reconcile D E p).changed = true ↔ (reconcile D E p).commands ≠ []) := by
  constructor
  · intro n
    exact findByName_afterState p D E n
  · simp only [reconcile]
    rw [List.any_eq_true, ne_eq, List.map_eq_nil_iff, ← ne_eq, typedCommands,
      concatMapL_ne_nil_iff]
    constructor
    · rintro ⟨b, hb, h⟩
      exact ⟨b, hb, (blockCmds_ne_nil_iff b).mpr h⟩
    · rintro ⟨b, hb, h⟩
      exact ⟨b, hb, (blockCmds_ne_nil_iff b).mp h⟩

theorem mem_numCmds {p : Policy} {d e : Option Int} {mkSet : Int → Cmd} {mkClear : Cmd}
    {c : Cmd} (h : c ∈ numCmds p d e mkSet mkClear) : (∃ v, c = mkSet v) ∨ c = mkClear := by
  cases d with
  | some v =>
    simp only [numCmds] at h
    split at h
    · cases h
    · simp at h
      exact Or.inl ⟨v, h⟩
  | none =>
    cases p <;> simp only [numCmds] at h
    case merged => cases h
    all_goals
      split at h
      · simp at h
        exact Or.inr h
      · cases h

theorem mem_flagCmds {p : Policy} {d e : Option Bool} {c : Cmd}
    (h : c ∈ flagCmds p d e) : c = Cmd.enableFS ∨ c = Cmd.disableFS := by
  cases d with
  | some b =>
    cases b <;> simp only [flagCmds] at h <;> split at h <;> simp at h <;> simp [h]
  | none =>
    cases p <;> simp only [flagCmds] at h
    case merged => cases h
    all_goals
      split at h
      · simp at h
        simp [h]
      · cases h

theorem mem_clearCmds {e : InterfaceLacpConfig} {c : Cmd} (h : c ∈ clearCmds e) :
    c = Cmd.clearPP ∨ c = Cmd.clearMB ∨ c = Cmd.disableFS := by
  rcases e with ⟨nm, pp, fs, mb⟩
  simp only [clearCmds] at h
  rcases List.mem_append.mp h with h1 | h1
  · rcases List.mem_append.mp h1 with h2 | h2
    · cases pp with
      | none => simp at h2
      | some v =>
        simp at h2
        simp [h2]
    · cases mb with
      | none => simp at h2
      | some v =>
        simp at h2
        simp [h2]
  · rcases fs with _ | b
    · simp at h1
    · cases b
      · simp at h1
      · simp at h1
        simp [h1]

theorem mem_attrCmds {p : Policy} {d e : InterfaceLacpConfig} {c : Cmd}
    (h : c ∈ attrCmds p d e) :
    (∃ v, c = Cmd.setPP v) ∨ c = Cmd.clearPP ∨ (∃ v, c = Cmd.setMB v) ∨ c = Cmd.clearMB ∨
      c = Cmd.enableFS ∨ c = Cmd.disableFS := by
  simp only [attrCmds] at h
  rcases List.mem_append.mp h with h' | h'
  · rcases List.mem_append.mp h' with h'' | h''
    · rcases mem_numCmds h'' with ⟨v, hv⟩ | hv
      · exact Or.inl ⟨v, hv⟩
      · exact Or.inr (Or.inl hv)
    · rcases mem_numCmds h'' with ⟨v, hv⟩ | hv
      · exact Or.inr (Or.inr (Or.inl ⟨v, hv⟩))
      · exact Or.inr (Or.inr (Or.inr (Or.inl hv)))
  · rcases mem_flagCmds h' with hv | hv
    · exact Or.inr (Or.inr (Or.inr (Or.inr (Or.inl hv))))
    · exact Or.inr (Or.inr (Or.inr (Or.inr (Or.inr hv))))

theorem pairwise_rank_three (l1 l2 l3 : List Cmd)
    (h1 : ∀ c ∈ l1, attrRank c = 0) (h2 : ∀ c ∈ l2, attrRank c = 1)
    (h3 : ∀ c ∈ l3, attrRank c = 2) :
    List.Pairwise (fun a b => attrRank a ≤ attrRank b) (l1 ++ l2 ++ l3) := by
  rw [List.pairwise_append, List.pairwise_append]
  refine ⟨⟨List.pairwise_of_forall_mem_list ?_, List.pairwise_of_forall_mem_list ?_, ?_⟩,
    List.pairwise_of_forall_mem_list ?_, ?_⟩
  · intro a ha b hb
    rw [h1 a ha, h1 b hb]
  · intro a ha b hb
    rw [h2 a ha, h2 b hb]
  · intro a ha b hb
    rw [h1 a ha, h2 b hb]
    exact Nat.zero_le 1
  · intro a ha b hb
    rw [h3 a ha, h3 b hb]
  · intro a ha b hb
    rcases List.mem_append.mp ha with h | h
    · rw [h1 a h, h3 b hb]
      exact Nat.zero_le 2
    · rw [h2 a h, h3 b hb]
      exact Nat.le_succ 1

theorem rank_numCmds {p : Policy} {d e : Option Int} {c : Cmd} {k : Nat}
    (mkSet : Int → Cmd) (mkClear : Cmd)
    (hset : ∀ v, attrRank (mkSet v) = k) (hclear : attrRank mkClear = k)
    (h : c ∈ numCmds p d e mkSet mkClear) : attrRank c = k := by
  rcases mem_numCmds h with ⟨v, hv⟩ | hv
  · rw [hv, hset]
  · rw [hv, hclear]

theorem attrCmds_ranked (p : Policy) (d e : InterfaceLacpConfig) :
    (∀ c ∈ attrCmds p d e, isAttrCmd c = true) ∧
      List.Pairwise (fun a b => attrRank a ≤ attrRank b) (attrCmds p d e) := by
  constructor
  · intro c hc
    rcases mem_attrCmds hc with ⟨v, h⟩ | h | ⟨v, h⟩ | h | h | h <;> subst h <;> rfl
  · exact pairwise_rank_three _ _ _
      (fun c hc => rank_numCmds Cmd.setPP Cmd.clearPP (fun v => rfl) rfl hc)
      (fun c hc => rank_numCmds Cmd.setMB Cmd.clearMB (fun v => rfl) rfl hc)
      (fun c hc => by rcases mem_flagCmds hc with h | h <;> subst h <;> rfl)

theorem clearCmds_split (e : InterfaceLacpConfig) :
    ∃ l1 l2 l3, clearCmds e = l1 ++ l2 ++ l3 ∧
      (∀ c ∈ l1, attrRank c = 0) ∧ (∀ c ∈ l2, attrRank c = 1) ∧
      (∀ c ∈ l3, attrRank c = 2) := by
  refine ⟨(match e.port_priority with | some _ => [Cmd.clearPP] | none => []),
    (match e.max_bundle with | some _ => [Cmd.clearMB] | none => []),
    (match e.fast_switchover with | some true => [Cmd.disableFS] | _ => []),
    rfl, ?_, ?_, ?_⟩
  · cases e.port_priority <;> simp [attrRank]
  · cases e.max_bundle <;> simp [attrRank]
  · rcases he : e.fast_switchover with _ | b
    · simp
    · cases b <;> simp [attrRank]

theorem clearCmds_ranked (e : InterfaceLacpConfig) :
    (∀ c ∈ clearCmds e, isAttrCmd c = true) ∧
      List.Pairwise (fun a b => attrRank a ≤ attrRank b) (clearCmds e) := by
  constructor
  · intro c hc
    rcases mem_clearCmds hc with h | h | h <;> subst h <;> rfl
  · rcases clearCmds_split e with ⟨l1, l2, l3, heq, h1, h2, h3⟩
    rw [heq]
    exact pairwise_rank_three l1 l2 l3 h1 h2 h3

theorem blocksOf_snd_ranked (p : Policy) (D E : List InterfaceLacpConfig)
    {b : String × List Cmd} (hb : b ∈ blocksOf p D E) :
    (∀ c ∈ b.2, isAttrCmd c = true) ∧
      List.Pairwise (fun a b => attrRank a ≤ attrRank b) b.2 := by
  cases p with
  | deleted =>
    simp only [blocksOf] at hb
    split at hb
    · rcases List.mem_map.mp hb with ⟨e, _, rfl⟩
      exact clearCmds_ranked e
    · rcases List.mem_map.mp hb with ⟨d, _, rfl⟩
      cases hf : findByName E d.name <;> simp only [hf]
      · simp
      · exact clearCmds_ranked _
  | merged =>
    simp only [blocksOf, List.append_nil] at hb
    rcases List.mem_map.mp hb with ⟨d, _, rfl⟩
    exact attrCmds_ranked _ _ _
  | replaced =>
    simp only [blocksOf, List.append_nil] at hb
    rcases List.mem_map.mp hb with ⟨d, _, rfl⟩
    exact attrCmds_ranked _ _ _
  | overridden =>
    simp only [blocksOf] at hb
    rcases List.mem_append.mp hb with h | h
    · rcases List.mem_map.mp h with ⟨d, _, rfl⟩
      exact attrCmds_ranked _ _ _
    · rcases List.mem_map.mp h with ⟨e, _, rfl⟩
      exact clearCmds_ranked e

/-- C3 (amended): for every policy, the typed command stream decomposes
into per-interface blocks, each beginning with the enter-interface
command and followed by a non-empty run of attribute commands whose
attribute order is non-decreasing in the fixed order port_priority,
max_bundle, fast_switchover. -/
theorem commands_enter_context_and_order (p : Policy) (D E : List InterfaceLacpConfig) :
    ∃ blocks : List (String × List Cmd),
      typedCommands p D E = concatMapL (fun b => Cmd.enter b.1 :: b.2) blocks ∧
      ∀ b ∈ blocks, b.2 ≠ [] ∧ (∀ c ∈ b.2, isAttrCmd c = true) ∧
        List.Pairwise (fun c1 c2 => attrRank c1 ≤ attrRank c2) b.2 := by
  refine ⟨(blocksOf p D E).filter (fun b => !b.2.isEmpty),
    concatMapL_blockCmds_filter _, ?_⟩
  intro b hb
  have hmem := List.mem_filter.mp hb
  have hr := blocksOf_snd_ranked p D E hmem.1
  refine ⟨?_, hr.1, hr.2⟩
  intro hnil
  have := hmem.2
  rw [hnil] at this
  simp at this

/-- C3 counterexample: on the module's own rendered documentation
example, the engine emits `lacp max-bundle 2` before
`lacp fast-switchover` for Port-channel10 (matching the EXAMPLES block
of the source), so the claimed fixed order port_priority,
fast_switchover, max_bundle does not hold. -/
theorem commands_order_counterexample :
    (reconcile renderedExampleConfig [] Policy.merged).commands =
      ["interface GigabitEthernet0/1", "lacp port-priority 10",
       "interface GigabitEthernet0/2", "lacp port-priority 20",
       "interface Port-channel10", "lacp max-bundle 2", "lacp fast-switchover"] ∧
    (reconcile renderedExampleConfig [] Policy.merged).commands ≠
      ["interface GigabitEthernet0/1", "lacp port-priority 10",
       "interface GigabitEthernet0/2", "lacp port-priority 20",
       "interface Port-channel10", "lacp fast-switchover", "lacp max-bundle 2"] := by
  constructor
  · rfl
  · decide

theorem attrCmds_lookup_after (p : Policy)
    (hp : p = Policy.merged ∨ p = Policy.replaced ∨ p = Policy.overridden)
    (D E : List InterfaceLacpConfig) (hD : namesNodup D)
    {d : InterfaceLacpConfig} (hd : d ∈ D) :
    attrCmds p d (lookupOrEmpty (afterState p D E) d.name) = [] := by
  have hDd : findByName D d.name = some d := findByName_of_nodup hD hd
  have h := findByName_afterState p D E d.name
  unfold lookupOrEmpty
  rw [h]
  rcases hp with hp | hp | hp <;> subst hp <;>
    cases hfE : findByName E d.name <;>
      simp only [afterRecordSpec, hfE, hDd, Option.getD_some] <;>
        exact attrCmds_after _ _ _

theorem clearCmds_after_overridden (D E : List InterfaceLacpConfig)
    {a : InterfaceLacpConfig} (ha : a ∈ afterState Policy.overridden D E)
    (hnone : (findByName D a.name).isNone = true) :
    clearCmds a = [] := by
  simp only [afterState] at ha
  rcases List.mem_append.mp ha with h | h
  · rcases List.mem_map.mp h with ⟨e, heE, heq⟩
    cases hfD : findByName D e.name with
    | some d =>
      rw [hfD] at heq
      rw [← heq] at hnone
      rw [applyCommon_name] at hnone
      rw [hfD] at hnone
      simp at hnone
    | none =>
      rw [hfD] at heq
      rw [← heq]
      exact clearCmds_emptyRecord e.name
  · rcases List.mem_map.mp h with ⟨d, hdf, heq⟩
    have hdD : d ∈ D := (List.mem_filter.mp hdf).1
    have : (findByName D d.name).isSome = true := findByName_isSome_of_mem hdD
    rw [← heq] at hnone
    rw [applyCommon_name, emptyRecord_name] at hnone
    rw [Option.isNone_iff_eq_none] at hnone
    rw [hnone] at this
    cases this

theorem blocksOf_after_nil (p : Policy)
    (hp : p = Policy.merged ∨ p = Policy.replaced ∨ p = Policy.overridden)
    (D E : List InterfaceLacpConfig) (hD : namesNodup D) :
    ∀ b ∈ blocksOf p D (afterState p D E), b.2 = [] := by
  intro b hb
  rcases hp with hp | hp | hp <;> subst hp
  · simp only [blocksOf, List.append_nil] at hb
    rcases List.mem_map.mp hb with ⟨d, hd, rfl⟩
    exact attrCmds_lookup_after Policy.merged (Or.inl rfl) D E hD hd
  · simp only [blocksOf, List.append_nil] at hb
    rcases List.mem_map.mp hb with ⟨d, hd, rfl⟩
    exact attrCmds_lookup_after Policy.replaced (Or.inr (Or.inl rfl)) D E hD hd
  · simp only [blocksOf] at hb
    rcases List.mem_append.mp hb with h | h
    · rcases List.mem_map.mp h with ⟨d, hd, rfl⟩
      exact attrCmds_lookup_after Policy.overridden (Or.inr (Or.inr rfl)) D E hD hd
    · rcases List.mem_map.mp h with ⟨a, haf, rfl⟩
      have hmem := List.mem_filter.mp haf
      exact clearCmds_after_overridden D E hmem.1 hmem.2

/-- C1: re-running reconcile with the same desired configuration against
the after state of a first run, under the same policy
(merged/replaced/overridden), emits no commands and reports
changed = false, for any starting existing state. -/
theorem reconcile_idempotent (D E : List InterfaceLacpConfig) (P : Policy)
    (hP : P = Policy.merged ∨ P = Policy.replaced ∨ P = Policy.overridden)
    (hD : namesNodup D) :
    (reconcile D (reconcile D E P).after P).commands = [] ∧
      (reconcile D (reconcile D E P).after P).changed = false := by
  have hblocks := blocksOf_after_nil P hP D E hD
  constructor
  · show (typedCommands P D (afterState P D E)).map renderCmd = []
    rw [typedCommands, concatMapL_eq_nil, List.map_nil]
    intro b hb
    rw [blockCmds, hblocks b hb]
    rfl
  · show (blocksOf P D (afterState P D E)).any (fun b => !b.2.isEmpty) = false
    rw [List.any_eq_false]
    intro b hb
    rw [hblocks b hb]
    simp

theorem mem_numCmds_merged {d e : Option Int} {mkSet : Int → Cmd} {mkClear : Cmd} {c : Cmd}
    (h : c ∈ numCmds Policy.merged d e mkSet mkClear) : ∃ v, c = mkSet v := by
  cases d with
  | none => cases h
  | some v =>
    simp only [numCmds] at h
    split at h
    · cases h
    · simp at h
      exact ⟨v, h⟩

theorem mem_flagCmds_merged {d e : Option Bool} {c : Cmd}
    (h : c ∈ flagCmds Policy.merged d e) :
    c = Cmd.enableFS ∨ (c = Cmd.disableFS ∧ d = some false) := by
  rcases d with _ | b
  · cases h
  · cases b
    · simp only [flagCmds] at h
      split at h
      · simp at h
        exact Or.inr ⟨h, rfl⟩
      · cases h
    · simp only [flagCmds] at h
      split at h
      · cases h
      · simp at h
        exact Or.inl h

theorem mem_typedCommands_merged {D E : List InterfaceLacpConfig} {c : Cmd}
    (hc : c ∈ typedCommands Policy.merged D E) :
    (∃ v, c = Cmd.setPP v) ∨ (∃ v, c = Cmd.setMB v) ∨ c = Cmd.enableFS ∨
      (c = Cmd.disableFS ∧ ∃ d ∈ D, d.fast_switchover = some false) ∨
      (∃ n, c = Cmd.enter n) := by
  rcases mem_concatMapL.mp hc with ⟨b, hb, hcb⟩
  simp only [blocksOf, List.append_nil] at hb
  rcases List.mem_map.mp hb with ⟨d, hdD, rfl⟩
  rw [blockCmds] at hcb
  split at hcb
  · cases hcb
  · rcases List.mem_cons.mp hcb with h | h
    · exact Or.inr (Or.inr (Or.inr (Or.inr ⟨_, h⟩)))
    · simp only [attrCmds] at h
      rcases List.mem_append.mp h with h' | h'
      · rcases List.mem_append.mp h' with h'' | h''
        · exact Or.inl (mem_numCmds_merged h'')
        · exact Or.inr (Or.inl (mem_numCmds_merged h''))
      · rcases mem_flagCmds_merged h' with h'' | ⟨h1, h2⟩
        · exact Or.inr (Or.inr (Or.inl h''))
        · exact Or.inr (Or.inr (Or.inr (Or.inl ⟨h1, d, hdD, h2⟩)))

/-- C4: under merged, every attribute present in an existing record but
absent from the matching desired record keeps its existing value in the
after state; and merged never emits a clear/negate command for an absent
attribute (no numeric negate at all, and the fast_switchover negate only
for a desired record that explicitly sets it to false). -/
theorem merged_never_removes (D E : List InterfaceLacpConfig) (hE : namesNodup E)
    {e : InterfaceLacpConfig} (he : e ∈ E) :
    (∃ a, findByName (reconcile D E Policy.merged).after e.name = some a ∧
      a.name = e.name ∧
      (∀ d, findByName D e.name = some d →
        (d.port_priority = none → a.port_priority = e.port_priority) ∧
        (d.max_bundle = none → a.max_bundle = e.max_bundle) ∧
        (d.fast_switchover = none → a.fast_switchover = e.fast_switchover)) ∧
      (findByName D e.name = none → a = e)) ∧
    Cmd.clearPP ∉ typedCommands Policy.merged D E ∧
    Cmd.clearMB ∉ typedCommands Policy.merged D E ∧
    (Cmd.disableFS ∈ typedCommands Policy.merged D E →
      ∃ d ∈ D, d.fast_switchover = some false) := by
  have hEe : findByName E e.name = some e := findByName_of_nodup hE he
  have hch : findByName (reconcile D E Policy.merged).after e.name =
      afterRecordSpec Policy.merged D E e.name :=
    findByName_afterState Policy.merged D E e.name
  refine ⟨?_, ?_, ?_, ?_⟩
  · cases hfD : findByName D e.name with
    | some d =>
      refine ⟨applyCommon Policy.merged d e, ?_, rfl, ?_, ?_⟩
      · rw [hch]
        simp [afterRecordSpec, hEe, hfD]
      · intro d' hd'
        injection hd' with hdd
        subst hdd
        refine ⟨?_, ?_, ?_⟩
        · intro hpp
          simp [applyCommon, numAfter, hpp]
        · intro hmb
          simp [applyCommon, numAfter, hmb]
        · intro hfs
          simp [applyCommon, flagAfter, hfs]
      · intro h
        exact Option.noConfusion h
    | none =>
      refine ⟨e, ?_, rfl, ?_, fun _ => rfl⟩
      · rw [hch]
        simp [afterRecordSpec, hEe, hfD]
      · intro d' hd'
        exact Option.noConfusion hd'
  · intro h
    rcases mem_typedCommands_merged h with ⟨v, hv⟩ | ⟨v, hv⟩ | hv | ⟨hv, _⟩ | ⟨n, hv⟩ <;>
      cases hv
  · intro h
    rcases mem_typedCommands_merged h with ⟨v, hv⟩ | ⟨v, hv⟩ | hv | ⟨hv, _⟩ | ⟨n, hv⟩ <;>
      cases hv
  · intro h
    rcases mem_typedCommands_merged h with ⟨v, hv⟩ | ⟨v, hv⟩ | hv | ⟨hv, hex⟩ | ⟨n, hv⟩ <;>
      first
        | exact hex
        | cases hv

/-- C5: under overridden, every existing interface absent from desired
keeps only its name (all managed attributes cleared, interface never
removed), and every desired interface absent from existing appears in
the after state with exactly the attributes desired specifies. -/
theorem overridden_fully_replaces (D E : List InterfaceLacpConfig)
    (hD : namesNodup D) (hE : namesNodup E) :
    (∀ e ∈ E, findByName D e.name = none →
      findByName (reconcile D E Policy.overridden).after e.name =
        some (emptyRecord e.name)) ∧
    (∀ d ∈ D, findByName E d.name = none →
      findByName (reconcile D E Policy.overridden).after d.name =
        some ⟨d.name, d.port_priority, d.fast_switchover, d.max_bundle⟩) := by
  constructor
  · intro e he hnone
    have hEe : findByName E e.name = some e := findByName_of_nodup hE he
    have hch : findByName (reconcile D E Policy.overridden).after e.name =
        afterRecordSpec Policy.overridden D E e.name :=
      findByName_afterState Policy.overridden D E e.name
    rw [hch]
    simp [afterRecordSpec, hEe, hnone]
  · intro d hd hnone
    have hDd : findByName D d.name = some d := findByName_of_nodup hD hd
    have hch : findByName (reconcile D E Policy.overridden).after d.name =
        afterRecordSpec Policy.overridden D E d.name :=
      findByName_afterState Policy.overridden D E d.name
    rw [hch]
    simp only [afterRecordSpec, hnone, hDd]
    rcases d with ⟨nm, pp, fs, mb⟩
    cases pp <;> cases fs <;> cases mb <;>
      simp [applyCommon, numAfter, flagAfter, emptyRecord]

/-- C6: under deleted with a non-empty config list, the supplied records
act purely as name selectors: attribute values in them are ignored
(mapping every record down to its bare name yields the identical
result), existing interfaces named in the config are cleared and all
others are untouched in the after state, and a config name absent from
existing contributes no enter-interface command. -/
theorem deleted_uses_names_only (D E : List InterfaceLacpConfig)
    (hne : D ≠ []) (hE : namesNodup E) :
    reconcile D E Policy.deleted =
        reconcile (D.map (fun d => emptyRecord d.name)) E Policy.deleted ∧
      (∀ e ∈ E, findByName (reconcile D E Policy.deleted).after e.name =
        some (if (findByName D e.name).isSome then emptyRecord e.name else e)) ∧
      (∀ d ∈ D, findByName E d.name = none →
        Cmd.enter d.name ∉ typedCommands Policy.deleted D E) := by
  have hDe : D.isEmpty = false := by
    cases D
    · exact absurd rfl hne
    · rfl
  have hDe' : (D.map (fun d => emptyRecord d.name)).isEmpty = false := by
    cases D
    · exact absurd rfl hne
    · rfl
  have hfind : ∀ n, findByName (D.map (fun d => emptyRecord d.name)) n =
      (findByName D n).map (fun d => emptyRecord d.name) :=
    fun n => findByName_map _ (fun r => emptyRecord_name r.name) D n
  have hblocks : blocksOf Policy.deleted D E = D.map (fun d =>
      match findByName E d.name with
      | some e => (e.name, clearCmds e)
      | none => (d.name, ([] : List Cmd))) := by
    simp [blocksOf, hDe]
  refine ⟨?_, ?_, ?_⟩
  · have hA : afterState Policy.deleted D E =
        afterState Policy.deleted (D.map (fun d => emptyRecord d.name)) E := by
      simp only [afterState]
      apply List.map_congr_left
      intro e _
      rw [hfind e.name, hDe, hDe']
      cases findByName D e.name <;> rfl
    have hB : blocksOf Policy.deleted D E =
        blocksOf Policy.deleted (D.map (fun d => emptyRecord d.name)) E := by
      have h2 : blocksOf Policy.deleted (D.map (fun d => emptyRecord d.name)) E =
          (D.map (fun d => emptyRecord d.name)).map (fun d =>
            match findByName E d.name with
            | some e => (e.name, clearCmds e)
            | none => (d.name, ([] : List Cmd))) := by
        simp [blocksOf, hDe']
      rw [hblocks, h2, List.map_map]
      apply List.map_congr_left
      intro d _
      simp only [Function.comp_apply, emptyRecord_name]
    simp only [reconcile, typedCommands]
    rw [hA, hB]
  · intro e he
    have hEe : findByName E e.name = some e := findByName_of_nodup hE he
    have hch : findByName (reconcile D E Policy.deleted).after e.name =
        afterRecordSpec Policy.deleted D E e.name :=
      findByName_afterState Policy.deleted D E e.name
    rw [hch]
    simp only [afterRecordSpec, hEe, hDe, Bool.false_or]
    cases hfd : (findByName D e.name).isSome <;> simp [hfd]
  · intro d hd hnone hc
    rcases mem_concatMapL.mp hc with ⟨b, hb, hcb⟩
    rw [hblocks] at hb
    rcases List.mem_map.mp hb with ⟨d', _, heq⟩
    subst heq
    cases hfd : findByName E d'.name with
    | none =>
      rw [hfd] at hcb
      simp [blockCmds] at hcb
    | some e =>
      rw [hfd] at hcb
      rw [blockCmds] at hcb
      split at hcb
      · cases hcb
      · have hsome : (findByName E e.name).isSome = true :=
          findByName_isSome_of_mem (findByName_mem hfd)
        rcases List.mem_cons.mp hcb with h | h
        · injection h with hn
          rw [hn] at hnone
          rw [hnone] at hsome
          cases hsome
        · rcases mem_clearCmds h with h' | h' | h' <;> cases h'

/-- C2: an invocation fails validation, before the engine is invoked,
when state merged/replaced/overridden/rendered is requested without
config, when state parsed is requested without running_config, and
whenever config and running_config are both supplied. -/
theorem validation_preconditions (p : ModuleParams) :
    ((p.state = some StateName.merged ∨ p.state = some StateName.replaced ∨
        p.state = some StateName.overridden ∨ p.state = some StateName.rendered) →
      p.config = none → isErr (validateParams p) = true) ∧
    (p.state = some StateName.parsed → p.running_config = none →
      isErr (validateParams p) = true) ∧
    (p.config.isSome = true → p.running_config.isSome = true →
      isErr (validateParams p) = true) := by
  rcases p with ⟨s, c, rc⟩
  refine ⟨?_, ?_, ?_⟩
  · rintro (rfl | rfl | rfl | rfl) rfl <;>
      simp [validateParams, requiredIf, missingRequirement, hasOption, effectiveState, isErr,
        List.find?]
  · rintro rfl rfl
    simp [validateParams, requiredIf, missingRequirement, hasOption, effectiveState, isErr,
      List.find?]
  · intro hc hrc
    simp only [validateParams]
    rw [if_pos (by simp [hc, hrc])]
    rfl

/-- C9: when the state option is omitted the module validates exactly as
if state merged had been supplied (the documented default), so an
invocation with neither state nor config fails validation. -/
theorem omitted_state_defaults_to_merged :
    (∀ c rc, validateParams ⟨none, c, rc⟩ = validateParams ⟨some StateName.merged, c, rc⟩) ∧
      isErr (validateParams ⟨none, none, none⟩) = true :=
  ⟨fun _ _ => rfl, rfl⟩

/-- C10: supplying running_config without config is never rejected by
validation for a state other than parsed: deleted and gathered accept it
outright, and in general the presence of running_config is irrelevant to
validation whenever config is absent and the effective state is not
parsed. -/
theorem running_config_alone_not_rejected :
    (∀ t, validateParams ⟨some StateName.deleted, none, some t⟩ = Except.ok ()) ∧
    (∀ t, validateParams ⟨some StateName.gathered, none, some t⟩ = Except.ok ()) ∧
    (∀ p : ModuleParams, p.config = none → effectiveState p ≠ StateName.parsed →
      validateParams p = validateParams ⟨p.state, none, none⟩) := by
  refine ⟨fun t => rfl, fun t => rfl, ?_⟩
  rintro ⟨s, c, rc⟩ hc hs
  simp only at hc
  subst hc
  rcases s with _ | s
  · rfl
  · cases s
    case parsed => exact absurd rfl hs
    all_goals rfl

/-- Witness for `reconcile_idempotent` at a concrete configuration. -/
theorem reconcile_idempotent_witness :
    (reconcile [⟨"GigabitEthernet0/1", some 10, none, none⟩]
        (reconcile [⟨"GigabitEthernet0/1", some 10, none, none⟩]
          [⟨"GigabitEthernet0/1", some 30, none, some 4⟩] Policy.merged).after
        Policy.merged).commands = [] ∧
      (reconcile [⟨"GigabitEthernet0/1", some 10, none, none⟩]
        (reconcile [⟨"GigabitEthernet0/1", some 10, none, none⟩]
          [⟨"GigabitEthernet0/1", some 30, none, some 4⟩] Policy.merged).after
        Policy.merged).changed = false :=
  reconcile_idempotent [⟨"GigabitEthernet0/1", some 10, none, none⟩]
    [⟨"GigabitEthernet0/1", some 30, none, some 4⟩] Policy.merged (Or.inl rfl) (by decide)

/-- Witness for `validation_preconditions` at concrete invocations. -/
theorem validation_preconditions_witness :
    isErr (validateParams ⟨some StateName.merged, none, none⟩) = true ∧
    isErr (validateParams ⟨some StateName.parsed, some [], none⟩) = true ∧
    isErr (validateParams ⟨some StateName.gathered, some [], some "line"⟩) = true :=
  ⟨(validation_preconditions ⟨some StateName.merged, none, none⟩).1 (Or.inl rfl) rfl,
   (validation_preconditions ⟨some StateName.parsed, some [], none⟩).2.1 rfl rfl,
   (validation_preconditions ⟨some StateName.gathered, some [], some "line"⟩).2.2 rfl rfl⟩

/-- Witness for `merged_never_removes` at a concrete configuration. -/
theorem merged_never_removes_witness :
    (∃ a, findByName (reconcile [⟨"Port-channel10", some 7, none, none⟩]
        [⟨"Port-channel10", none, some true, some 2⟩] Policy.merged).after
        "Port-channel10" = some a ∧
      a.name = "Port-channel10" ∧
      (∀ d, findByName [⟨"Port-channel10", some 7, none, none⟩] "Port-channel10" = some d →
        (d.port_priority = none → a.port_priority = none) ∧
        (d.max_bundle = none → a.max_bundle = some 2) ∧
        (d.fast_switchover = none → a.fast_switchover = some true)) ∧
      (findByName [⟨"Port-channel10", some 7, none, none⟩] "Port-channel10" = none →
        a = ⟨"Port-channel10", none, some true, some 2⟩)) ∧
    Cmd.clearPP ∉ typedCommands Policy.merged [⟨"Port-channel10", some 7, none, none⟩]
      [⟨"Port-channel10", none, some true, some 2⟩] ∧
    Cmd.clearMB ∉ typedCommands Policy.merged [⟨"Port-channel10", some 7, none, none⟩]
      [⟨"Port-channel10", none, some true, some 2⟩] ∧
    (Cmd.disableFS ∈ typedCommands Policy.merged [⟨"Port-channel10", some 7, none, none⟩]
        [⟨"Port-channel10", none, some true, some 2⟩] →
      ∃ d ∈ [(⟨"Port-channel10", some 7, none, none⟩ : InterfaceLacpConfig)],
        d.fast_switchover = some false) :=
  merged_never_removes [⟨"Port-channel10", some 7, none, none⟩]
    [⟨"Port-channel10", none, some true, some 2⟩] (by decide)
    (show (⟨"Port-channel10", none, some true, some 2⟩ : InterfaceLacpConfig) ∈
      [(⟨"Port-channel10", none, some true, some 2⟩ : InterfaceLacpConfig)] by decide)

/-- Witness for `overridden_fully_replaces` at a concrete configuration. -/
theorem overridden_fully_replaces_witness :
    (∀ e ∈ [(⟨"Port-channel10", none, some true, none⟩ : InterfaceLacpConfig)],
      findByName [(⟨"GigabitEthernet0/1", some 20, none, none⟩ : InterfaceLacpConfig)]
          e.name = none →
        findByName (reconcile [⟨"GigabitEthernet0/1", some 20, none, none⟩]
          [⟨"Port-channel10", none, some true, none⟩] Policy.overridden).after e.name =
          some (emptyRecord e.name)) ∧
    (∀ d ∈ [(⟨"GigabitEthernet0/1", some 20, none, none⟩ : InterfaceLacpConfig)],
      findByName [(⟨"Port-channel10", none, some true, none⟩ : InterfaceLacpConfig)]
          d.name = none →
        findByName (reconcile [⟨"GigabitEthernet0/1", some 20, none, none⟩]
          [⟨"Port-channel10", none, some true, none⟩] Policy.overridden).after d.name =
          some ⟨d.name, d.port_priority, d.fast_switchover, d.max_bundle⟩) :=
  overridden_fully_replaces [⟨"GigabitEthernet0/1", some 20, none, none⟩]
    [⟨"Port-channel10", none, some true, none⟩] (by decide) (by decide)

/-- Witness for `deleted_uses_names_only` at a concrete configuration. -/
theorem deleted_uses_names_only_witness :
    reconcile [⟨"GigabitEthernet0/1", some 99, none, none⟩]
        [⟨"GigabitEthernet0/1", some 10, none, none⟩] Policy.deleted =
      reconcile ([(⟨"GigabitEthernet0/1", some 99, none, none⟩ : InterfaceLacpConfig)].map
          (fun d => emptyRecord d.name))
        [⟨"GigabitEthernet0/1", some 10, none, none⟩] Policy.deleted ∧
    (∀ e ∈ [(⟨"GigabitEthernet0/1", some 10, none, none⟩ : InterfaceLacpConfig)],
      findByName (reconcile [⟨"GigabitEthernet0/1", some 99, none, none⟩]
        [⟨"GigabitEthernet0/1", some 10, none, none⟩] Policy.deleted).after e.name =
        some (if (findByName [(⟨"GigabitEthernet0/1", some 99, none, none⟩ :
            InterfaceLacpConfig)] e.name).isSome then emptyRecord e.name else e)) ∧
    (∀ d ∈ [(⟨"GigabitEthernet0/1", some 99, none, none⟩ : InterfaceLacpConfig)],
      findByName [(⟨"GigabitEthernet0/1", some 10, none, none⟩ : InterfaceLacpConfig)]
          d.name = none →
        Cmd.enter d.name ∉ typedCommands Policy.deleted
          [⟨"GigabitEthernet0/1", some 99, none, none⟩]
          [⟨"GigabitEthernet0/1", some 10, none, none⟩]) :=
  deleted_uses_names_only [⟨"GigabitEthernet0/1", some 99, none, none⟩]
    [⟨"GigabitEthernet0/1", some 10, none, none⟩] (by decide) (by decide)

/-- Witness for `running_config_alone_not_rejected` at a concrete
invocation. -/
theorem running_config_alone_not_rejected_witness :
    validateParams ⟨some StateName.deleted, none, some "line"⟩ =
      validateParams ⟨some StateName.deleted, none, none⟩ :=
  (running_config_alone_not_rejected).2.2 ⟨some StateName.deleted, none, some "line"⟩ rfl
    (by decide)

end LacpInterfaces
